import Mathlib

/-!
Verification of the asynchronous export-job engine of
django-import-export-extensions against its specification.

The admin filter/search resolution is embedded from
`src/import_export_extensions/admin/mixins/export_mixin.py`
(`_export_get_admin_filter`, `_export_get_search_filter`,
`_export_construct_search`).  Python dicts that preserve insertion order are
embedded as association lists with an insert-or-overwrite operation
(`dinsert`) that keeps the original position of an overwritten key, exactly
as CPython dicts do.  Python strings are Lean `String`s; `str.removeprefix`
is embedded as `removePrefixOf`.

The job model, its cancellation, the status query service and the export
start API live in repository files that are not part of `src/`; those are
modelled from the spec (each such definition carries a doc comment starting
with "Modelled from the spec:") and from the error messages the integration
tests in `src/test_project/tests/integration_tests/test_api/test_export.py`
assert verbatim.
-/

/-- Lookup in an insertion-ordered dict embedded as an association list:
the value of the first (and for a dict, only) entry with the given key. -/
def dlookup {α : Type} (k : String) : List (String × α) → Option α
  | [] => none
  | (k2, v) :: rest => if k2 = k then some v else dlookup k rest

/-- Assignment `d[k] = v` on an insertion-ordered dict: an existing key keeps
its position and gets the new value, a new key is appended at the end. -/
def dinsert {α : Type} (k : String) (v : α) : List (String × α) → List (String × α)
  | [] => [(k, v)]
  | (k2, v2) :: rest =>
    if k2 = k then (k, v) :: rest else (k2, v2) :: dinsert k v rest

/-- Removal `d.pop(k, default)` on an insertion-ordered dict: drops the entry
with the given key (a dict holds at most one). -/
def dremove {α : Type} (k : String) : List (String × α) → List (String × α)
  | [] => []
  | (k2, v) :: rest => if k2 = k then rest else (k2, v) :: dremove k rest

/-- Helper for `removePrefixOf`: `some rest` when the first list is a prefix
of the second and `rest` is what remains, `none` otherwise. -/
def dropPrefixChars : List Char → List Char → Option (List Char)
  | [], s => some s
  | _ :: _, [] => none
  | p :: ps, c :: cs => if p = c then dropPrefixChars ps cs else none

/-- Embedding of Python `s.removeprefix(p)`: strips `p` from the front of `s`
when it is a prefix, otherwise returns `s` unchanged. -/
def removePrefixOf (p s : String) : String :=
  match dropPrefixChars p.data s.data with
  | some rest => String.mk rest
  | none => s

/-- Embedding of `CeleryExportAdminMixin._export_construct_search`
(export_mixin.py lines 332-352).  The Python code reads `field_name[0]`
unguarded, so the empty field name raises `IndexError`; the embedding returns
`none` there and `some` of the pair the code returns otherwise:
`^` maps to `istartswith`, `=` to `iexact`, `@` to `search`, anything else to
`icontains` with no prefix stripped, and the result is
`(stripped_name ++ "__" ++ lookup, stripped_name)`. -/
def _export_construct_search (field_name : String) : Option (String × String) :=
  match field_name.data with
  | [] => none
  | c :: _ =>
    let search_type : String :=
      if c = '^' then "^" else if c = '=' then "=" else if c = '@' then "@" else ""
    let lookup : String :=
      if c = '^' then "istartswith"
      else if c = '=' then "iexact"
      else if c = '@' then "search"
      else "icontains"
    let fn := removePrefixOf search_type field_name
    some (fn ++ "__" ++ lookup, fn)

/-- The admin configuration the mixin methods consult:
`get_list_filter(request)` (the permitted filter field set) and
`get_search_fields(request)` (the permitted search fields). -/
structure ExportMixin where
  list_filter : List String
  search_fields : List String

/-- The loop body of `_export_get_search_filter` (export_mixin.py lines
320-329): walks the permitted search fields, skips a field whose underlying
column (`model_field`) was already used, and otherwise assigns the extracted
search term to the derived lookup field.  `none` when
`_export_construct_search` raises on an empty field name. -/
def searchFilterGo (extracted : String) :
    List String → List String → List (String × String) → Option (List (String × String))
  | [], _, acc => some acc
  | f :: fs, used, acc =>
    match _export_construct_search f with
    | none => none
    | some (lf, mf) =>
      if mf ∈ used then searchFilterGo extracted fs used acc
      else searchFilterGo extracted fs (used ++ [mf]) (dinsert lf extracted acc)

/-- Embedding of `CeleryExportAdminMixin._export_get_search_filter`
(export_mixin.py lines 305-330).  `value` is the (possibly multi-valued)
`q` query parameter; the extracted term is its first value, or the empty
string when absent. -/
def _export_get_search_filter (m : ExportMixin) (value : List String) :
    Option (List (String × String)) :=
  searchFilterGo (match value with | [] => "" | v :: _ => v) m.search_fields [] []

/-- A value of the heterogeneous `admin_filter` dict built by
`_export_get_admin_filter`: either a verbatim query-parameter string or the
search specification assigned to the key `"search"`. -/
inductive AdminFilterValue where
  | str (v : String)
  | search (kw : List (String × String))
deriving DecidableEq

/-- Successive dict assignments `d[k] = v` for each value of a multi-valued
query parameter, in order: the inner loop of the dict comprehension in
`_export_get_admin_filter`, so the last value wins. -/
def insertVals (k : String) : List String → List (String × AdminFilterValue) →
    List (String × AdminFilterValue)
  | [], acc => acc
  | v :: vs, acc => insertVals k vs (dinsert k (AdminFilterValue.str v) acc)

/-- The dict comprehension of `_export_get_admin_filter` (export_mixin.py
lines 295-300): for each query-parameter key in order, when the key is in
`get_list_filter(request)`, assign each of its values in turn. -/
def adminFilterLoop (permitted : List String) :
    List (String × List String) → List (String × AdminFilterValue) →
    List (String × AdminFilterValue)
  | [], acc => acc
  | (k, vs) :: rest, acc =>
    adminFilterLoop permitted rest (if k ∈ permitted then insertVals k vs acc else acc)

/-- Embedding of `CeleryExportAdminMixin._export_get_admin_filter`
(export_mixin.py lines 284-302): pops `q` from the query parameters, builds
the search specification, runs the dict comprehension over the remaining
keys, and finally assigns the search specification to the key `"search"`.
`none` when the search-filter construction raises. -/
def _export_get_admin_filter (m : ExportMixin)
    (query_params : List (String × List String)) :
    Option (List (String × AdminFilterValue)) :=
  let q := (dlookup "q" query_params).getD []
  let qp := dremove "q" query_params
  match _export_get_search_filter m q with
  | none => none
  | some search_kwargs =>
    some (dinsert "search" (AdminFilterValue.search search_kwargs)
      (adminFilterLoop m.list_filter qp []))

/-- The lookup operator determined by the one-character prefix of a search
field, as `_export_construct_search` derives it. -/
def charLookup (c : Char) : String :=
  if c = '^' then "istartswith"
  else if c = '=' then "iexact"
  else if c = '@' then "search"
  else "icontains"

/-- The search-field name with its one-character prefix convention stripped:
after `^`, `=` or `@` the remaining characters, otherwise the whole name. -/
def stripSearchType (c : Char) (cs : List Char) : List Char :=
  if c = '^' ∨ c = '=' ∨ c = '@' then cs else c :: cs

/-- The spec-side description of the search specification: the first
occurrence of each distinct underlying column among the permitted search
fields, paired with that occurrence's derived lookup-field name. -/
def firstLookups : List String → List String → List (String × String)
  | [], _ => []
  | f :: fs, seen =>
    match _export_construct_search f with
    | none => []
    | some (lf, mf) =>
      if mf ∈ seen then firstLookups fs seen
      else (lf, mf) :: firstLookups fs (seen ++ [mf])

/-- Lowercasing of a string, character by character: the case folding under
which the four derived lookups compare their operands. -/
def lowerStr (s : String) : String := String.mk (s.data.map Char.toLower)

/-- Splitting a character list at a separator character, as Python
`str.split(sep)` does: `n + 1` groups for `n` separators, with empty groups
kept. -/
def splitOnChar (sep : Char) : List Char → List (List Char)
  | [] => [[]]
  | c :: rest =>
    match splitOnChar sep rest with
    | [] => [[c]]
    | g :: gs => if c = sep then [] :: g :: gs else (c :: g) :: gs

/-- Whether the first character list occurs contiguously inside the second. -/
def listIsInfixOf (n : List Char) : List Char → Bool
  | [] => n.isEmpty
  | c :: t => n.isPrefixOf (c :: t) || listIsInfixOf n t

/-- Modelled from the spec: the semantics of the four Django lookup operators
the resolver derives (Django itself is an external collaborator, not part of
this repository).  `istartswith` is case-insensitive starts-with, `iexact`
case-insensitive equality, `icontains` case-insensitive containment, and
`search` full-text search, here word-of-term membership among words of the
value after case folding; the spec asserts all four are case-insensitive. -/
def lookupEval (lookup v term : String) : Bool :=
  if lookup = "istartswith" then (lowerStr term).data.isPrefixOf (lowerStr v).data
  else if lookup = "iexact" then lowerStr v == lowerStr term
  else if lookup = "search" then
    (splitOnChar ' ' (lowerStr term).data).all
      (fun w => (splitOnChar ' ' (lowerStr v).data).contains w)
  else if lookup = "icontains" then
    listIsInfixOf (lowerStr term).data (lowerStr v).data
  else false

/-- Modelled from the spec: the export-job status enum (the `ExportJob` model
in `models/export_job.py` is not under `src/`); the direction-specific names
and their string values are those the API tests assert. -/
inductive ExportStatus where
  | CREATED
  | EXPORTING
  | EXPORT_ERROR
  | EXPORTED
  | CANCELLED
deriving DecidableEq

/-- Modelled from the spec: the string value of each status, as interpolated
into the cancellation error message the tests assert verbatim. -/
def ExportStatus.value : ExportStatus → String
  | .CREATED => "CREATED"
  | .EXPORTING => "EXPORTING"
  | .EXPORT_ERROR => "EXPORT_ERROR"
  | .EXPORTED => "EXPORTED"
  | .CANCELLED => "CANCELLED"

/-- The validated query specification stored verbatim on a job: filter
kwargs and ordering (the search part is carried inside the filter kwargs by
the admin resolver and is not repeated here). -/
structure ResourceKwargs where
  filter_kwargs : List (String × String)
  ordering : List String
deriving DecidableEq

/-- Modelled from the spec: the persisted `ExportJob` record (the model
itself is not under `src/`): id, status, resource descriptor, query kwargs,
format, optional owning principal, and the result file set only on success. -/
structure ExportJob where
  id : Nat
  export_status : ExportStatus
  resource_path : String
  resource_kwargs : ResourceKwargs
  file_format_path : String
  created_by : Option Nat
  result_file : Option String
deriving DecidableEq

/-- Modelled from the spec: the error taxonomy the service surfaces
synchronously - NotFound (unknown id or visibility mismatch, deliberately
the same value), ValidationError (field, message) and InvalidStateError. -/
inductive ApiError where
  | notFound
  | validation (field message : String)
  | invalidState (message : String)
deriving DecidableEq

/-- Modelled from the spec: the statuses from which cancellation is allowed,
direction-specific for export: CREATED and EXPORTING (the RUNNING state). -/
def allowed_cancel_statuses : List ExportStatus :=
  [ExportStatus.CREATED, ExportStatus.EXPORTING]

/-- Modelled from the spec: the InvalidState message of a rejected
cancellation, exactly as `test_export_api_cancel_with_errors` asserts it:
it names the job's current status and the allowed set verbatim. -/
def cancelErrorMessage (job : ExportJob) : String :=
  "ExportJob with id " ++ toString job.id ++ " has incorrect status: `"
    ++ job.export_status.value ++ "`. Expected statuses: ['CREATED', 'EXPORTING']"

/-- Modelled from the spec: `cancel_export` (the method on the `ExportJob`
model, not under `src/`): succeeds, transitioning to CANCELLED, exactly when
the current status is CREATED or EXPORTING, and otherwise fails with an
InvalidState error naming the current status and the allowed set. -/
def cancel_export (job : ExportJob) : Except ApiError ExportJob :=
  if job.export_status ∈ allowed_cancel_statuses then
    Except.ok { job with export_status := ExportStatus.CANCELLED }
  else
    Except.error (ApiError.invalidState (cancelErrorMessage job))

/-- Modelled from the spec: `getStatus(jobId, requester)` of the Status/Result
Query Service (the API viewset is not under `src/`): NotFound when no job
with the id exists, NotFound (the same value) when `created_by` is set and
differs from the requester, and the job otherwise. -/
def getStatus (jobs : List ExportJob) (jobId requester : Nat) :
    Except ApiError ExportJob :=
  match jobs.find? (fun j => j.id == jobId) with
  | none => Except.error ApiError.notFound
  | some j =>
    match j.created_by with
    | none => Except.ok j
    | some owner =>
      if owner = requester then Except.ok j else Except.error ApiError.notFound

/-- The groups of a string split on commas, each group as a string: how the
`ordering` query value is tokenized. -/
def splitCommas (s : String) : List String :=
  (splitOnChar ',' s.data).map String.mk

/-- Modelled from the spec: an ordering token with its optional leading `-`
(descending order) removed, the name validated against orderable fields. -/
def orderingBase (t : String) : String :=
  match t.data with
  | '-' :: rest => String.mk rest
  | _ => t

/-- Modelled from the spec: validation of the ordering tokens against the
resource's orderable fields (the API serializer is not under `src/`); an
unresolvable name fails with the message
`test_export_api_create_export_job_with_invalid_ordering` asserts, naming
the offending token. -/
def resolveOrdering (orderable : List String) : List String → Except ApiError (List String)
  | [] => Except.ok []
  | t :: ts =>
    if orderingBase t ∈ orderable then
      match resolveOrdering orderable ts with
      | Except.ok rest => Except.ok (t :: rest)
      | Except.error e => Except.error e
    else
      Except.error (ApiError.validation "ordering"
        ("Cannot resolve keyword '" ++ orderingBase t ++ "' into field."))

/-- Modelled from the spec: the tokens of the reserved `ordering` query
parameter, comma-separated; no tokens when the parameter is absent. -/
def parseOrderingParam (value : Option String) : List String :=
  match value with
  | none => []
  | some s => splitCommas s

/-- Modelled from the spec: a permitted filter field together with whether
its target type is numeric (an integer model field). -/
structure FieldSpec where
  name : String
  is_numeric : Bool
deriving DecidableEq

/-- Modelled from the spec: whether a string value coerces to a numeric
field's type - a non-empty run of digits. -/
def isNumericValue (s : String) : Bool :=
  !s.data.isEmpty && s.data.all Char.isDigit

/-- Whether the permitted filter field named `k` is numeric (false for an
unknown name). -/
def fieldIsNumeric (fields : List FieldSpec) (k : String) : Bool :=
  match fields.find? (fun f => f.name == k) with
  | some f => f.is_numeric
  | none => false

/-- Modelled from the spec: type validation of the matched filter kwargs
(the API serializer is not under `src/`): a value that does not coerce to a
numeric field's type fails with the field-specific message
`test_export_api_create_export_job_with_invalid_filter_kwargs` asserts. -/
def validateFilterKwargs (fields : List FieldSpec) :
    List (String × String) → Except ApiError Unit
  | [] => Except.ok ()
  | (k, v) :: rest =>
    if fieldIsNumeric fields k && !isNumericValue v then
      Except.error (ApiError.validation k "Enter a number.")
    else validateFilterKwargs fields rest

/-- A fresh job id: one more than the largest id in the store. -/
def freshId (jobs : List ExportJob) : Nat :=
  (jobs.map (fun j => j.id)).foldr max 0 + 1

/-- Modelled from the spec: the Job Factory's new record - status CREATED,
the given descriptor, kwargs and format, owned by the requester, with no
result file; execution is not started. -/
def newExportJob (jobs : List ExportJob) (fk : List (String × String))
    (ordering : List String) (rp fp : String) (requester : Nat) : ExportJob :=
  { id := freshId jobs
    export_status := ExportStatus.CREATED
    resource_path := rp
    resource_kwargs := { filter_kwargs := fk, ordering := ordering }
    file_format_path := fp
    created_by := some requester
    result_file := none }

/-- Modelled from the spec: the export start API surface (the DRF view is not
under `src/`): validates the matched filter kwargs and the ordering, and on
success persists a CREATED job and answers 201 with its id; on a validation
failure answers 400 with the error and persists nothing.  The result is
(store, HTTP status, created id, error). -/
def export_api_start (fields : List FieldSpec) (orderable : List String)
    (jobs : List ExportJob) (filter_kwargs : List (String × String))
    (orderingParam : Option String) (rp fp : String) (requester : Nat) :
    List ExportJob × Nat × Option Nat × Option ApiError :=
  match validateFilterKwargs fields filter_kwargs with
  | Except.error e => (jobs, 400, none, some e)
  | Except.ok _ =>
    match resolveOrdering orderable (parseOrderingParam orderingParam) with
    | Except.error e => (jobs, 400, none, some e)
    | Except.ok ordering =>
      (jobs ++ [newExportJob jobs filter_kwargs ordering rp fp requester],
        201, some (freshId jobs), none)

/-- The four lookup operator names the resolver can derive. -/
def lookups4 : List String := ["istartswith", "iexact", "search", "icontains"]

/-- Characterization of `_export_construct_search` on a non-empty field name:
the lookup is determined by the first character and the prefix is stripped. -/
theorem construct_eq (c : Char) (cs : List Char) :
    _export_construct_search (String.mk (c :: cs)) =
      some (String.mk (stripSearchType c cs) ++ "__" ++ charLookup c,
        String.mk (stripSearchType c cs)) := by
  by_cases h1 : c = '^'
  · subst h1
    simp [_export_construct_search, removePrefixOf, dropPrefixChars, stripSearchType, charLookup]
  by_cases h2 : c = '='
  · subst h2
    simp [_export_construct_search, removePrefixOf, dropPrefixChars, stripSearchType, charLookup]
  by_cases h3 : c = '@'
  · subst h3
    simp [_export_construct_search, removePrefixOf, dropPrefixChars, stripSearchType, charLookup]
  · simp [_export_construct_search, removePrefixOf, dropPrefixChars, stripSearchType, charLookup,
      h1, h2, h3]

/-- Cancellation of a single underscore separator between underscore-free
left parts: the decomposition is unique. -/
theorem no_underscore_sep (xs : List Char) :
    ∀ (ys r r2 : List Char), (∀ ch ∈ xs, ch ≠ '_') → (∀ ch ∈ ys, ch ≠ '_') →
      xs ++ '_' :: r = ys ++ '_' :: r2 → xs = ys ∧ r = r2 := by
  induction xs with
  | nil =>
    intro ys r r2 _ hy h
    cases ys with
    | nil => simpa using h
    | cons y ys2 =>
      simp only [List.nil_append, List.cons_append] at h
      injection h with h1 h2
      exact absurd h1.symm (hy y (by simp))
  | cons x xs2 ih =>
    intro ys r r2 hx hy h
    cases ys with
    | nil =>
      simp only [List.nil_append, List.cons_append] at h
      injection h with h1 h2
      exact absurd h1 (hx x (by simp))
    | cons y ys2 =>
      simp only [List.cons_append] at h
      injection h with h1 h2
      have := ih ys2 r r2 (fun ch hc => hx ch (by simp [hc])) (fun ch hc => hy ch (by simp [hc])) h2
      exact ⟨by simp [h1, this.1], this.2⟩

/-- The decomposition `name ++ "__" ++ lookup` with an underscore-free lookup
is injective in both parts. -/
theorem sep_inj (a b l l2 : String)
    (hl : ∀ ch ∈ l.data, ch ≠ '_') (hl2 : ∀ ch ∈ l2.data, ch ≠ '_')
    (h : a ++ "__" ++ l = b ++ "__" ++ l2) : a = b ∧ l = l2 := by
  have hd : (a.data ++ ['_', '_']) ++ l.data = (b.data ++ ['_', '_']) ++ l2.data := by
    have := congrArg String.data h
    simpa [String.data_append] using this
  have hrev := congrArg List.reverse hd
  simp only [List.reverse_append, List.reverse_cons, List.reverse_nil, List.nil_append,
    List.append_assoc] at hrev
  have hshape : l.data.reverse ++ '_' :: ('_' :: a.data.reverse) =
      l2.data.reverse ++ '_' :: ('_' :: b.data.reverse) := by
    simpa using hrev
  have hmain := no_underscore_sep l.data.reverse l2.data.reverse ('_' :: a.data.reverse)
    ('_' :: b.data.reverse)
    (fun ch hc => hl ch (List.mem_reverse.mp hc))
    (fun ch hc => hl2 ch (List.mem_reverse.mp hc)) hshape
  have h1 : l.data = l2.data := by
    have := hmain.1
    simpa using congrArg List.reverse this
  have h2 : a.data = b.data := by
    have := hmain.2
    injection this with _ h3
    simpa using congrArg List.reverse h3
  constructor
  · cases a; cases b; exact congrArg String.mk h2
  · cases l; cases l2; exact congrArg String.mk h1

/-- Every derived lookup operator is one of the four lookups. -/
theorem charLookup_mem (c : Char) : charLookup c ∈ lookups4 := by
  unfold charLookup lookups4
  split
  · simp
  split
  · simp
  split
  · simp
  · simp

/-- None of the four lookup operator names contains an underscore. -/
theorem lookups4_no_underscore : ∀ l ∈ lookups4, ∀ ch ∈ l.data, ch ≠ '_' := by decide

/-- Rebuilding a string from its characters is the identity. -/
theorem str_mk_data (f : String) : String.mk f.data = f := by cases f; rfl

/-- A string with no characters is the empty string. -/
theorem str_eq_empty_of_data (f : String) (h : f.data = []) : f = "" := by
  cases f
  simp only at h
  subst h
  rfl

/-- Assignment of a key absent from the dict appends the entry at the end. -/
theorem dinsert_fresh {α : Type} (k : String) (v : α) (acc : List (String × α))
    (h : ∀ p ∈ acc, p.1 ≠ k) : dinsert k v acc = acc ++ [(k, v)] := by
  induction acc with
  | nil => rfl
  | cons p rest ih =>
    obtain ⟨k2, v2⟩ := p
    have hne : k2 ≠ k := h (k2, v2) (by simp)
    simp [dinsert, hne, ih (fun q hq => h q (by simp [hq]))]

/-- The search-filter loop, under the invariant that every accumulated key is
a used column joined to one of the four lookups, extends the accumulator with
exactly the first-occurrence lookup fields of the remaining search fields,
each bound to the extracted term. -/
theorem searchFilterGo_eq (e : String) (fs : List String) :
    ∀ (used : List String) (acc : List (String × String)),
      (∀ f ∈ fs, f ≠ "") →
      (∀ p ∈ acc, ∃ mf lk, mf ∈ used ∧ lk ∈ lookups4 ∧ p.1 = mf ++ "__" ++ lk) →
      searchFilterGo e fs used acc =
        some (acc ++ (firstLookups fs used).map (fun p => (p.1, e))) := by
  induction fs with
  | nil =>
    intro used acc _ _
    simp [searchFilterGo, firstLookups]
  | cons f fs2 ih =>
    intro used acc hne hinv
    have hfne : f ≠ "" := hne f (by simp)
    obtain ⟨c, cs, hdata⟩ : ∃ c cs, f.data = c :: cs := by
      cases hd : f.data with
      | nil => exact absurd (str_eq_empty_of_data f hd) hfne
      | cons c cs => exact ⟨c, cs, rfl⟩
    have hf : f = String.mk (c :: cs) := by rw [← hdata, str_mk_data]
    have hcons : _export_construct_search f =
        some (String.mk (stripSearchType c cs) ++ "__" ++ charLookup c,
          String.mk (stripSearchType c cs)) := by
      rw [hf, construct_eq]
    by_cases hmf : String.mk (stripSearchType c cs) ∈ used
    · have hstep : searchFilterGo e (f :: fs2) used acc = searchFilterGo e fs2 used acc := by
        simp [searchFilterGo, hcons, hmf]
      have hfl : firstLookups (f :: fs2) used = firstLookups fs2 used := by
        simp [firstLookups, hcons, hmf]
      rw [hstep, hfl]
      exact ih used acc (fun g hg => hne g (by simp [hg])) hinv
    · have hfresh : ∀ p ∈ acc,
          p.1 ≠ String.mk (stripSearchType c cs) ++ "__" ++ charLookup c := by
        intro p hp heq
        obtain ⟨mf2, lk2, hmem2, hlk2, hp1⟩ := hinv p hp
        have hstr : mf2 ++ "__" ++ lk2 =
            String.mk (stripSearchType c cs) ++ "__" ++ charLookup c := by
          rw [← hp1, heq]
        have := sep_inj mf2 (String.mk (stripSearchType c cs)) lk2 (charLookup c)
          (lookups4_no_underscore lk2 hlk2)
          (lookups4_no_underscore (charLookup c) (charLookup_mem c)) hstr
        exact hmf (this.1 ▸ hmem2)
      have hstep : searchFilterGo e (f :: fs2) used acc =
          searchFilterGo e fs2 (used ++ [String.mk (stripSearchType c cs)])
            (acc ++ [(String.mk (stripSearchType c cs) ++ "__" ++ charLookup c, e)]) := by
        simp [searchFilterGo, hcons, hmf,
          dinsert_fresh (String.mk (stripSearchType c cs) ++ "__" ++ charLookup c) e acc hfresh]
      have hfl : firstLookups (f :: fs2) used =
          (String.mk (stripSearchType c cs) ++ "__" ++ charLookup c,
            String.mk (stripSearchType c cs)) ::
            firstLookups fs2 (used ++ [String.mk (stripSearchType c cs)]) := by
        simp [firstLookups, hcons, hmf]
      rw [hstep, hfl]
      have hnewinv : ∀ p ∈ acc ++ [(String.mk (stripSearchType c cs) ++ "__" ++ charLookup c, e)],
          ∃ mf lk, mf ∈ used ++ [String.mk (stripSearchType c cs)] ∧ lk ∈ lookups4 ∧
            p.1 = mf ++ "__" ++ lk := by
        intro p hp
        rcases List.mem_append.mp hp with hold | hnew
        · obtain ⟨mf2, lk2, hmem2, hlk2, hp1⟩ := hinv p hold
          exact ⟨mf2, lk2, by simp [hmem2], hlk2, hp1⟩
        · have : p = (String.mk (stripSearchType c cs) ++ "__" ++ charLookup c, e) := by
            simpa using hnew
          exact ⟨String.mk (stripSearchType c cs), charLookup c, by simp,
            charLookup_mem c, by rw [this]⟩
      rw [ih (used ++ [String.mk (stripSearchType c cs)])
        (acc ++ [(String.mk (stripSearchType c cs) ++ "__" ++ charLookup c, e)])
        (fun g hg => hne g (by simp [hg])) hnewinv]
      simp

/-- The first-occurrence description has pairwise distinct underlying columns,
none of them already seen. -/
theorem firstLookups_spec : ∀ (fs seen : List String),
    ((firstLookups fs seen).map (fun p => p.2)).Nodup ∧
      ∀ mf ∈ (firstLookups fs seen).map (fun p => p.2), mf ∉ seen := by
  intro fs
  induction fs with
  | nil => intro seen; simp [firstLookups]
  | cons f fs2 ih =>
    intro seen
    cases hcon : _export_construct_search f with
    | none => simp [firstLookups, hcon]
    | some p =>
      obtain ⟨lf, mf⟩ := p
      by_cases hmf : mf ∈ seen
      · have h2 := ih seen
        constructor
        · simpa [firstLookups, hcon, hmf] using h2.1
        · intro mf2 hmf2
          refine h2.2 mf2 ?_
          simpa [firstLookups, hcon, hmf] using hmf2
      · have h2 := ih (seen ++ [mf])
        have hfl : firstLookups (f :: fs2) seen = (lf, mf) :: firstLookups fs2 (seen ++ [mf]) := by
          simp [firstLookups, hcon, hmf]
        constructor
        · rw [hfl]
          simp only [List.map_cons, List.nodup_cons]
          constructor
          · intro hc
            have := h2.2 mf hc
            simp at this
          · exact h2.1
        · intro mf2 hmf2
          rw [hfl] at hmf2
          simp only [List.map_cons, List.mem_cons] at hmf2
          rcases hmf2 with he | hin
          · rw [he]; exact hmf
          · intro hseen
            exact h2.2 mf2 hin (by simp [hseen])

/-- C5: the produced search specification has exactly one entry per distinct
underlying column, keeping the first occurrence's lookup when two permitted
search fields normalize to the same column, and every entry's value is the
single extracted search term: the first value of `q`, or the empty string
when `q` is absent. -/
theorem C5_search_dedup (m : ExportMixin) (q : List String)
    (h : ∀ f ∈ m.search_fields, f ≠ "") :
    _export_get_search_filter m q =
        some ((firstLookups m.search_fields []).map (fun p => (p.1, q.headD ""))) ∧
      ((firstLookups m.search_fields []).map (fun p => p.2)).Nodup := by
  constructor
  · unfold _export_get_search_filter
    cases q with
    | nil => simpa using searchFilterGo_eq "" m.search_fields [] [] h (by simp)
    | cons v tail => simpa using searchFilterGo_eq v m.search_fields [] [] h (by simp)
  · exact (firstLookups_spec m.search_fields []).1

/-- C5 witness: `name` and `^name` normalize to the same column so only the
first occurrence's `icontains` lookup is kept, and every entry carries the
extracted term. -/
theorem C5_witness :
    _export_get_search_filter ⟨[], ["name", "^name", "=id"]⟩ ["Some"] =
      some [("name__icontains", "Some"), ("id__iexact", "Some")] := by
  have h := C5_search_dedup ⟨[], ["name", "^name", "=id"]⟩ ["Some"] (by decide)
  rw [h.1]
  decide

/-- C10: the search-lookup construction requires a non-empty field name: it
reads the first character unguarded, so the empty string lies outside its
domain (the embedding returns none exactly there), and for every non-empty
field name it totally returns the pair of the prefix-stripped name suffixed
by the lookup and the prefix-stripped name. -/
theorem C10_construct_domain (f : String) :
    (_export_construct_search f = none ↔ f = "") ∧
      (∀ c cs, f.data = c :: cs →
        _export_construct_search f =
          some (String.mk (stripSearchType c cs) ++ "__" ++ charLookup c,
            String.mk (stripSearchType c cs))) := by
  constructor
  · constructor
    · intro hn
      cases hd : f.data with
      | nil => exact str_eq_empty_of_data f hd
      | cons c cs =>
        have hf : f = String.mk (c :: cs) := by rw [← hd, str_mk_data]
        rw [hf, construct_eq] at hn
        exact absurd hn (by simp)
    · intro he
      subst he
      rfl
  · intro c cs hd
    rw [show f = String.mk (c :: cs) by rw [← hd, str_mk_data], construct_eq]

/-- C4: for every non-empty permitted search field, the derived lookup is
determined solely by the one-character prefix - `^` yields `istartswith`,
`=` yields `iexact`, `@` yields `search`, and no prefix yields `icontains`
(the mapping `charLookup`) - with the prefix stripped from the derived
lookup-field name, and all four lookups are case-insensitive: their
evaluation depends only on the case-folded operands. -/
theorem C4_prefix_determines_lookup (f : String) (c : Char) (cs : List Char)
    (h : f.data = c :: cs) :
    _export_construct_search f =
        some (String.mk (stripSearchType c cs) ++ "__" ++ charLookup c,
          String.mk (stripSearchType c cs)) ∧
      charLookup c ∈ lookups4 ∧
      (∀ lk ∈ lookups4, ∀ v v2 t t2, lowerStr v = lowerStr v2 → lowerStr t = lowerStr t2 →
        lookupEval lk v t = lookupEval lk v2 t2) := by
  refine ⟨?_, charLookup_mem c, ?_⟩
  · rw [show f = String.mk (c :: cs) by rw [← h, str_mk_data], construct_eq]
  · intro lk _ v v2 t t2 hv ht
    simp only [lookupEval, hv, ht]

/-- C4 witness: the concrete field `^name` derives `name__istartswith`, and
`icontains` evaluates identically on operands differing only in case. -/
theorem C4_witness :
    _export_construct_search "^name" = some ("name__istartswith", "name") ∧
      lookupEval "icontains" "My Artist" "aRtIsT" =
        lookupEval "icontains" "my artist" "artist" := by
  have h := C4_prefix_determines_lookup "^name" '^' "name".data rfl
  constructor
  · rw [h.1]
    decide
  · exact h.2.2 "icontains" (by decide) "My Artist" "my artist" "aRtIsT" "artist"
      (by decide) (by decide)

/-- Lookup of the key just assigned yields the assigned value. -/
theorem dlookup_dinsert_self {α : Type} (k : String) (v : α) (l : List (String × α)) :
    dlookup k (dinsert k v l) = some v := by
  induction l with
  | nil => simp [dinsert, dlookup]
  | cons p rest ih =>
    obtain ⟨k2, v2⟩ := p
    by_cases h : k2 = k
    · simp [dinsert, dlookup, h]
    · simp [dinsert, dlookup, h, ih]

/-- Assignment of a different key does not change a lookup. -/
theorem dlookup_dinsert_ne {α : Type} (k k2 : String) (hne : k ≠ k2) (v : α)
    (l : List (String × α)) : dlookup k (dinsert k2 v l) = dlookup k l := by
  induction l with
  | nil =>
    simp only [dinsert, dlookup]
    rw [if_neg (fun h2 => hne h2.symm)]
  | cons p rest ih =>
    obtain ⟨k3, v3⟩ := p
    by_cases h : k3 = k2
    · simp only [dinsert, if_pos h, dlookup]
      rw [if_neg (fun h2 => hne h2.symm), if_neg (fun h2 => hne (h ▸ h2).symm)]
    · simp only [dinsert, if_neg h, dlookup]
      by_cases h2 : k3 = k
      · rw [if_pos h2, if_pos h2]
      · rw [if_neg h2, if_neg h2, ih]

/-- Assigning the values of a different key does not change a lookup. -/
theorem insertVals_lookup_ne (k k2 : String) (hne : k ≠ k2) :
    ∀ (vs : List String) (acc : List (String × AdminFilterValue)),
      dlookup k (insertVals k2 vs acc) = dlookup k acc := by
  intro vs
  induction vs with
  | nil => intro acc; rfl
  | cons v vs2 ih =>
    intro acc
    simp only [insertVals]
    rw [ih, dlookup_dinsert_ne k k2 hne]

/-- Assigning a non-empty value list leaves the key bound to its last value. -/
theorem insertVals_lookup_self (k : String) :
    ∀ (vs : List String) (v : String) (acc : List (String × AdminFilterValue)),
      dlookup k (insertVals k (v :: vs) acc) =
        some (AdminFilterValue.str (vs.getLastD v)) := by
  intro vs
  induction vs with
  | nil =>
    intro v acc
    simp only [insertVals, List.getLastD]
    exact dlookup_dinsert_self k (AdminFilterValue.str v) acc
  | cons v2 vs2 ih =>
    intro v acc
    simp only [insertVals] at ih ⊢
    rw [ih v2 (dinsert k (AdminFilterValue.str v) acc), List.getLastD_cons]

/-- A key that occurs in no remaining query parameter keeps its binding
through the filter comprehension. -/
theorem loop_lookup_absent (permitted : List String) (k : String) :
    ∀ (params : List (String × List String)) (acc : List (String × AdminFilterValue)),
      (∀ p ∈ params, p.1 ≠ k) →
      dlookup k (adminFilterLoop permitted params acc) = dlookup k acc := by
  intro params
  induction params with
  | nil => intro acc _; rfl
  | cons q rest ih =>
    intro acc h
    obtain ⟨k2, vs⟩ := q
    have hk2 : k2 ≠ k := h (k2, vs) (by simp)
    simp only [adminFilterLoop]
    rw [ih _ (fun p hp => h p (by simp [hp]))]
    by_cases hp : k2 ∈ permitted
    · rw [if_pos hp, insertVals_lookup_ne k k2 (fun he => hk2 he.symm)]
    · rw [if_neg hp]

/-- A key outside the permitted filter set keeps its binding through the
filter comprehension. -/
theorem loop_lookup_skip (permitted : List String) (k : String) (hk : k ∉ permitted) :
    ∀ (params : List (String × List String)) (acc : List (String × AdminFilterValue)),
      dlookup k (adminFilterLoop permitted params acc) = dlookup k acc := by
  intro params
  induction params with
  | nil => intro acc; rfl
  | cons q rest ih =>
    intro acc
    obtain ⟨k2, vs⟩ := q
    simp only [adminFilterLoop]
    rw [ih]
    by_cases hp : k2 ∈ permitted
    · have hk2 : k ≠ k2 := fun he => hk (he ▸ hp)
      rw [if_pos hp, insertVals_lookup_ne k k2 hk2]
    · rw [if_neg hp]

/-- With pairwise distinct parameter keys, a permitted key present with a
non-empty value list ends bound to the last of its values. -/
theorem loop_lookup_mem (permitted : List String) (k v : String) (vs : List String) :
    ∀ (params : List (String × List String)) (acc : List (String × AdminFilterValue)),
      (params.map Prod.fst).Nodup → (k, v :: vs) ∈ params → k ∈ permitted →
      dlookup k (adminFilterLoop permitted params acc) =
        some (AdminFilterValue.str (vs.getLastD v)) := by
  intro params
  induction params with
  | nil => intro acc _ hmem _; simp at hmem
  | cons q rest ih =>
    intro acc hnodup hmem hperm
    obtain ⟨k2, vs2⟩ := q
    simp only [List.map_cons, List.nodup_cons] at hnodup
    rcases List.mem_cons.mp hmem with he | hin
    · injection he with hk hv
      subst hk
      subst hv
      simp only [adminFilterLoop, if_pos hperm]
      have hrest : ∀ p ∈ rest, p.1 ≠ k := by
        intro p hp he2
        exact hnodup.1 (List.mem_map.mpr ⟨p, hp, he2⟩)
      rw [loop_lookup_absent permitted k rest _ hrest, insertVals_lookup_self]
    · have hk2 : k2 ≠ k := by
        intro he2
        exact hnodup.1 (he2 ▸ List.mem_map.mpr ⟨(k, v :: vs), hin, rfl⟩)
      simp only [adminFilterLoop]
      exact ih _ hnodup.2 hin hperm

/-- Removing a key gives a sublist of the dict. -/
theorem dremove_sublist {α : Type} (k : String) (l : List (String × α)) :
    List.Sublist (dremove k l) l := by
  induction l with
  | nil => simp [dremove]
  | cons p rest ih =>
    obtain ⟨k2, v⟩ := p
    by_cases h : k2 = k
    · simp only [dremove, if_pos h]
      exact List.Sublist.cons _ (List.Sublist.refl rest)
    · simp only [dremove, if_neg h]
      exact List.Sublist.cons₂ _ ih

/-- An entry with a different key survives the removal of a key. -/
theorem mem_dremove {α : Type} (k : String) (p : String × α) (l : List (String × α))
    (hp : p ∈ l) (hne : p.1 ≠ k) : p ∈ dremove k l := by
  induction l with
  | nil => simp at hp
  | cons q rest ih =>
    obtain ⟨k2, v2⟩ := q
    rcases List.mem_cons.mp hp with he | hin
    · have hk2 : k2 ≠ k := by
        intro h2
        exact hne (by rw [he]; exact h2)
      rw [he]
      simp [dremove, hk2]
    · by_cases h : k2 = k
      · simp only [dremove, if_pos h]
        exact hin
      · simp only [dremove, if_neg h]
        exact List.mem_cons_of_mem _ (ih hin)

/-- The search filter construction succeeds whenever no permitted search
field is empty. -/
theorem get_search_filter_some (m : ExportMixin) (q : List String)
    (h : ∀ f ∈ m.search_fields, f ≠ "") :
    ∃ kw, _export_get_search_filter m q = some kw := by
  unfold _export_get_search_filter
  exact ⟨_, searchFilterGo_eq _ m.search_fields [] [] h (by simp)⟩

/-- Unfolding of `_export_get_admin_filter` once the search filter is known:
the comprehension over the parameters without `q`, then the `"search"` key
assigned last. -/
theorem admin_filter_eq (m : ExportMixin) (params : List (String × List String))
    (kw : List (String × String))
    (hkw : _export_get_search_filter m ((dlookup "q" params).getD []) = some kw) :
    _export_get_admin_filter m params =
      some (dinsert "search" (AdminFilterValue.search kw)
        (adminFilterLoop m.list_filter (dremove "q" params) [])) := by
  simp only [_export_get_admin_filter, hkw]

/-- C9 (amended): for every permitted filter key other than the reserved key
`q` and the key `search` (which the resolver overwrites with the search
specification) that appears with multiple values in the query parameters, the
resolver's output maps that key to the last value of its list, each
successive value overwriting the previous one. -/
theorem C9_last_value_wins (m : ExportMixin) (params : List (String × List String))
    (k v : String) (vs : List String)
    (hnodup : (params.map Prod.fst).Nodup)
    (hsf : ∀ f ∈ m.search_fields, f ≠ "")
    (hkq : k ≠ "q") (hks : k ≠ "search")
    (hmem : (k, v :: vs) ∈ params) (hperm : k ∈ m.list_filter) :
    ∃ out, _export_get_admin_filter m params = some out ∧
      dlookup k out = some (AdminFilterValue.str (vs.getLastD v)) := by
  obtain ⟨kw, hkw⟩ := get_search_filter_some m ((dlookup "q" params).getD []) hsf
  refine ⟨_, admin_filter_eq m params kw hkw, ?_⟩
  rw [dlookup_dinsert_ne k "search" hks]
  have hnodup2 : ((dremove "q" params).map Prod.fst).Nodup :=
    hnodup.sublist ((dremove_sublist "q" params).map Prod.fst)
  exact loop_lookup_mem m.list_filter k v vs (dremove "q" params) []
    hnodup2 (mem_dremove "q" (k, v :: vs) params hmem hkq) hperm

/-- C9 counterexample: the permitted filter key `search` with values
`["a", "b"]` is not mapped to its last value `"b"`; the resolver overwrites
it with the search specification. -/
theorem C9_counterexample :
    _export_get_admin_filter ⟨["search"], []⟩ [("search", ["a", "b"])] =
        some [("search", AdminFilterValue.search [])] ∧
      dlookup "search" [("search", AdminFilterValue.search [])] ≠
        some (AdminFilterValue.str "b") := by
  decide

/-- C9 witness: the permitted key `name` with values `["Some", "Artist"]` is
mapped to `"Artist"`. -/
theorem C9_witness :
    ∃ out, _export_get_admin_filter ⟨["name"], []⟩ [("name", ["Some", "Artist"])] = some out ∧
      dlookup "name" out = some (AdminFilterValue.str "Artist") := by
  obtain ⟨out, h1, h2⟩ := C9_last_value_wins ⟨["name"], []⟩ [("name", ["Some", "Artist"])]
    "name" "Some" ["Artist"] (by decide) (by simp) (by decide) (by decide) (by decide) (by decide)
  exact ⟨out, h1, by rw [h2]; rfl⟩

/-- C6 (amended): every non-reserved query-parameter key other than the
literal key `search` (which the resolver overwrites with the search
specification) is included in the filter output exactly when it is in the
permitted filter field set, with its value passed through verbatim, and a
key not in the permitted set is silently dropped without an error. -/
theorem C6_passthrough (m : ExportMixin) (params : List (String × List String))
    (k v : String)
    (hnodup : (params.map Prod.fst).Nodup)
    (hsf : ∀ f ∈ m.search_fields, f ≠ "")
    (hkq : k ≠ "q") (hks : k ≠ "search")
    (hmem : (k, [v]) ∈ params) :
    ∃ out, _export_get_admin_filter m params = some out ∧
      dlookup k out =
        (if k ∈ m.list_filter then some (AdminFilterValue.str v) else none) := by
  obtain ⟨kw, hkw⟩ := get_search_filter_some m ((dlookup "q" params).getD []) hsf
  refine ⟨_, admin_filter_eq m params kw hkw, ?_⟩
  rw [dlookup_dinsert_ne k "search" hks]
  by_cases hperm : k ∈ m.list_filter
  · rw [if_pos hperm]
    have hnodup2 : ((dremove "q" params).map Prod.fst).Nodup :=
      hnodup.sublist ((dremove_sublist "q" params).map Prod.fst)
    exact loop_lookup_mem m.list_filter k v [] (dremove "q" params) []
      hnodup2 (mem_dremove "q" (k, [v]) params hmem hkq) hperm
  · rw [if_neg hperm, loop_lookup_skip m.list_filter k hperm]
    rfl

/-- C6 counterexample: the permitted key `search` with value `"foo"` is not
passed through verbatim; the resolver overwrites it with the search
specification. -/
theorem C6_counterexample :
    _export_get_admin_filter ⟨["search"], []⟩ [("search", ["foo"])] =
        some [("search", AdminFilterValue.search [])] ∧
      dlookup "search" [("search", AdminFilterValue.search [])] ≠
        some (AdminFilterValue.str "foo") := by
  decide

/-- C6 witness: the permitted key `name` passes its value `"Artist"` through
verbatim (even with a comma the value would not be split, see C9's last-value
behaviour for multi-valued keys), and the unpermitted key `other` is
dropped. -/
theorem C6_witness :
    ∃ out, _export_get_admin_filter ⟨["name"], []⟩ [("name", ["Artist"]), ("other", ["x"])] =
        some out ∧
      dlookup "name" out = some (AdminFilterValue.str "Artist") ∧
      dlookup "other" out = none := by
  obtain ⟨out1, h1, h2⟩ := C6_passthrough ⟨["name"], []⟩
    [("name", ["Artist"]), ("other", ["x"])] "name" "Artist"
    (by decide) (by simp) (by decide) (by decide) (by decide)
  obtain ⟨out2, h3, h4⟩ := C6_passthrough ⟨["name"], []⟩
    [("name", ["Artist"]), ("other", ["x"])] "other" "x"
    (by decide) (by simp) (by decide) (by decide) (by decide)
  rw [h1] at h3
  injection h3 with h5
  refine ⟨out1, h1, by simpa using h2, ?_⟩
  rw [h5]
  simpa using h4



/-- C1: for every job, cancellation succeeds, transitioning the job to
CANCELLED, exactly when the current status is CREATED or EXPORTING (the
direction-specific RUNNING state); otherwise it fails with an InvalidState
error whose message names the current status and the exact allowed set, and
in particular a second cancel after a successful one fails the same way
naming CANCELLED as current rather than crashing. -/
theorem C1_cancel_state_machine (job : ExportJob) :
    (job.export_status ∈ allowed_cancel_statuses →
      cancel_export job = Except.ok { job with export_status := ExportStatus.CANCELLED })
  ∧ (job.export_status ∉ allowed_cancel_statuses →
      cancel_export job = Except.error (ApiError.invalidState
        ("ExportJob with id " ++ toString job.id ++ " has incorrect status: `"
          ++ job.export_status.value ++ "`. Expected statuses: ['CREATED', 'EXPORTING']")))
  ∧ (∀ j2, cancel_export job = Except.ok j2 →
      j2.export_status = ExportStatus.CANCELLED ∧
      cancel_export j2 = Except.error (ApiError.invalidState
        ("ExportJob with id " ++ toString j2.id ++ " has incorrect status: `" ++ "CANCELLED"
          ++ "`. Expected statuses: ['CREATED', 'EXPORTING']"))) := by
  refine ⟨?_, ?_, ?_⟩
  · intro h
    simp [cancel_export, h]
  · intro h
    simp [cancel_export, h, cancelErrorMessage]
  · intro j2 hok
    unfold cancel_export at hok
    by_cases h : job.export_status ∈ allowed_cancel_statuses
    · rw [if_pos h] at hok
      injection hok with hj
      subst hj
      refine ⟨rfl, ?_⟩
      simp [cancel_export, allowed_cancel_statuses, cancelErrorMessage, ExportStatus.value]
    · rw [if_neg h] at hok
      exact absurd hok (by simp)

/-- C2: getStatus fails with NotFound when no job with the id exists, and
with the identical NotFound value when the job's created_by is set and
differs from the requester, so the two failure causes are indistinguishable
to the caller; when created_by is unset or matches, the job is returned. -/
theorem C2_status_visibility (jobs : List ExportJob) (jobId requester : Nat) :
    ((∀ j ∈ jobs, j.id ≠ jobId) →
      getStatus jobs jobId requester = Except.error ApiError.notFound)
  ∧ (∀ j, jobs.find? (fun j2 => j2.id == jobId) = some j →
      ((∀ owner, j.created_by = some owner → owner ≠ requester →
          getStatus jobs jobId requester = Except.error ApiError.notFound)
        ∧ (j.created_by = none → getStatus jobs jobId requester = Except.ok j)
        ∧ (j.created_by = some requester →
            getStatus jobs jobId requester = Except.ok j))) := by
  constructor
  · intro h
    have hnone : jobs.find? (fun j2 => j2.id == jobId) = none := by
      rw [List.find?_eq_none]
      intro j hj
      simpa using h j hj
    simp [getStatus, hnone]
  · intro j hfind
    refine ⟨?_, ?_, ?_⟩
    · intro owner ho hne
      simp [getStatus, hfind, ho, hne]
    · intro h0
      simp [getStatus, hfind, h0]
    · intro hr
      simp [getStatus, hfind, hr]

/-- Every member of a list of naturals is bounded by its maximum. -/
theorem le_foldr_max (l : List Nat) (n : Nat) (h : n ∈ l) : n ≤ l.foldr max 0 := by
  induction l with
  | nil => simp at h
  | cons a l2 ih =>
    rcases List.mem_cons.mp h with he | hin
    · subst he
      exact Nat.le_max_left _ _
    · exact le_trans (ih hin) (Nat.le_max_right _ _)

/-- The fresh id differs from the id of every stored job. -/
theorem fresh_id_not_mem (jobs : List ExportJob) : ∀ j ∈ jobs, j.id ≠ freshId jobs := by
  intro j hj he
  have hle : j.id ≤ (jobs.map (fun j2 => j2.id)).foldr max 0 :=
    le_foldr_max _ _ (List.mem_map.mpr ⟨j, hj, rfl⟩)
  simp only [freshId] at he
  omega

/-- C3: for every creation request whose filter kwargs and ordering validate,
the API persists a new job with status CREATED carrying the given kwargs,
descriptor and format, does not start execution (the job stays CREATED),
reports 201 with the new id, and the created job is retrievable by that id. -/
theorem C3_create_job (fields : List FieldSpec) (orderable : List String)
    (jobs : List ExportJob) (fk : List (String × String)) (op : Option String)
    (rp fp : String) (requester : Nat) (ord : List String)
    (hval : validateFilterKwargs fields fk = Except.ok ())
    (hord : resolveOrdering orderable (parseOrderingParam op) = Except.ok ord) :
    export_api_start fields orderable jobs fk op rp fp requester =
        (jobs ++ [newExportJob jobs fk ord rp fp requester], 201,
          some (freshId jobs), none)
      ∧ (newExportJob jobs fk ord rp fp requester).export_status = ExportStatus.CREATED
      ∧ getStatus (jobs ++ [newExportJob jobs fk ord rp fp requester]) (freshId jobs)
          requester = Except.ok (newExportJob jobs fk ord rp fp requester) := by
  refine ⟨by simp [export_api_start, hval, hord], rfl, ?_⟩
  have h1 : jobs.find? (fun j => j.id == freshId jobs) = none := by
    rw [List.find?_eq_none]
    intro j hj
    simpa using fresh_id_not_mem jobs j hj
  have hfind : (jobs ++ [newExportJob jobs fk ord rp fp requester]).find?
      (fun j => j.id == freshId jobs) = some (newExportJob jobs fk ord rp fp requester) := by
    rw [List.find?_append, h1]
    simp [newExportJob]
  unfold getStatus
  rw [hfind]
  simp [newExportJob]

/-- C3 witness: a concrete valid creation request answers 201 and the CREATED
job is retrievable. -/
theorem C3_witness :
    export_api_start [⟨"id", true⟩] ["name", "id"] [] [("name", "Artist")] (some "name,-id")
        "app.resources.ArtistResource" "csv" 7 =
      ([] ++ [newExportJob [] [("name", "Artist")] ["name", "-id"]
        "app.resources.ArtistResource" "csv" 7], 201, some (freshId []), none)
    ∧ (newExportJob [] [("name", "Artist")] ["name", "-id"]
        "app.resources.ArtistResource" "csv" 7).export_status = ExportStatus.CREATED
    ∧ getStatus ([] ++ [newExportJob [] [("name", "Artist")] ["name", "-id"]
        "app.resources.ArtistResource" "csv" 7]) (freshId []) 7 =
      Except.ok (newExportJob [] [("name", "Artist")] ["name", "-id"]
        "app.resources.ArtistResource" "csv" 7) :=
  C3_create_job [⟨"id", true⟩] ["name", "id"] [] [("name", "Artist")] (some "name,-id")
    "app.resources.ArtistResource" "csv" 7 ["name", "-id"] rfl rfl

/-- C7: the ordering value splits on commas into ordered tokens, each
optionally prefixed with a minus for descending order; when every token
resolves to an orderable field resolution succeeds with the tokens in order,
and an unresolvable token fails with a ValidationError naming that token,
upon which the API answers 400 and creates no job. -/
theorem C7_ordering_resolution (orderable : List String) (value : String) :
    (splitCommas "name,-id" = ["name", "-id"])
  ∧ (∀ ts : List String, (∀ t ∈ ts, orderingBase t ∈ orderable) →
      resolveOrdering orderable ts = Except.ok ts)
  ∧ (∀ pre t post, (∀ p ∈ pre, orderingBase p ∈ orderable) → orderingBase t ∉ orderable →
      resolveOrdering orderable (pre ++ t :: post) = Except.error (ApiError.validation
        "ordering" ("Cannot resolve keyword '" ++ orderingBase t ++ "' into field.")))
  ∧ (∀ fields jobs fk rp fp requester e,
      validateFilterKwargs fields fk = Except.ok () →
      resolveOrdering orderable (parseOrderingParam (some value)) = Except.error e →
      export_api_start fields orderable jobs fk (some value) rp fp requester =
        (jobs, 400, none, some e)) := by
  refine ⟨by decide, ?_, ?_, ?_⟩
  · intro ts h
    induction ts with
    | nil => rfl
    | cons t ts2 ih =>
      simp only [resolveOrdering, if_pos (h t (by simp))]
      rw [ih (fun t2 h2 => h t2 (by simp [h2]))]
  · intro pre t post
    induction pre with
    | nil =>
      intro _ hbad
      simp only [List.nil_append, resolveOrdering, if_neg hbad]
    | cons p pre2 ih =>
      intro hpre hbad
      simp only [List.cons_append, resolveOrdering, if_pos (hpre p (by simp)), List.append_eq]
      rw [ih (fun p2 h2 => hpre p2 (by simp [h2])) hbad]
  · intro fields jobs fk rp fp requester e hval herr
    simp [export_api_start, hval, herr]

/-- When some matched filter pair fails the numeric coercion, validation
fails with the message for the first such pair. -/
theorem validate_first_bad (fields : List FieldSpec) :
    ∀ kwargs : List (String × String),
      (∃ p ∈ kwargs, fieldIsNumeric fields p.1 = true ∧ isNumericValue p.2 = false) →
      ∃ k2 v2, (k2, v2) ∈ kwargs ∧ fieldIsNumeric fields k2 = true ∧
        isNumericValue v2 = false ∧
        validateFilterKwargs fields kwargs =
          Except.error (ApiError.validation k2 "Enter a number.") := by
  intro kwargs
  induction kwargs with
  | nil =>
    intro h
    simp at h
  | cons q rest ih =>
    intro h
    obtain ⟨k, v⟩ := q
    by_cases hg : (fieldIsNumeric fields k && !isNumericValue v) = true
    · refine ⟨k, v, by simp, ?_, ?_, by simp [validateFilterKwargs, hg]⟩
      · exact (Bool.and_eq_true_iff.mp hg).1
      · simpa using (Bool.and_eq_true_iff.mp hg).2
    · have hrest : ∃ p ∈ rest, fieldIsNumeric fields p.1 = true ∧ isNumericValue p.2 = false := by
        obtain ⟨p, hp, h1, h2⟩ := h
        rcases List.mem_cons.mp hp with he | hin
        · exfalso
          apply hg
          rw [he] at h1 h2
          simp only at h1 h2
          simp [h1, h2]
        · exact ⟨p, hin, h1, h2⟩
      obtain ⟨k2, v2, hmem, h1, h2, heq⟩ := ih hrest
      exact ⟨k2, v2, by simp [hmem], h1, h2, by simp [validateFilterKwargs, hg, heq]⟩

/-- C8: a matched filter key whose value cannot be coerced to its numeric
field's type makes resolution fail with the field-specific numeric-coercion
message `Enter a number.`, and the API answers 400 persisting no job. -/
theorem C8_numeric_validation (fields : List FieldSpec) (kwargs : List (String × String))
    (k v : String) (hmem : (k, v) ∈ kwargs)
    (hnum : fieldIsNumeric fields k = true) (hbad : isNumericValue v = false) :
    ∃ k2 v2, (k2, v2) ∈ kwargs ∧ fieldIsNumeric fields k2 = true ∧
      isNumericValue v2 = false ∧
      validateFilterKwargs fields kwargs =
        Except.error (ApiError.validation k2 "Enter a number.") ∧
      (∀ orderable jobs op rp fp requester,
        export_api_start fields orderable jobs kwargs op rp fp requester =
          (jobs, 400, none, some (ApiError.validation k2 "Enter a number."))) := by
  obtain ⟨k2, v2, hm, h1, h2, heq⟩ :=
    validate_first_bad fields kwargs ⟨(k, v), hmem, hnum, hbad⟩
  refine ⟨k2, v2, hm, h1, h2, heq, ?_⟩
  intro orderable jobs op rp fp requester
  simp [export_api_start, heq]

/-- C8 witness: the concrete query `id=invalid_id` against the integer field
`id` fails with the numeric-coercion message and persists nothing. -/
theorem C8_witness :
    ∃ k2 v2, (k2, v2) ∈ [("id", "invalid_id")] ∧
      fieldIsNumeric [⟨"id", true⟩] k2 = true ∧ isNumericValue v2 = false ∧
      validateFilterKwargs [⟨"id", true⟩] [("id", "invalid_id")] =
        Except.error (ApiError.validation k2 "Enter a number.") ∧
      (∀ orderable jobs op rp fp requester,
        export_api_start [⟨"id", true⟩] orderable jobs [("id", "invalid_id")] op rp fp
            requester =
          (jobs, 400, none, some (ApiError.validation k2 "Enter a number."))) :=
  C8_numeric_validation [⟨"id", true⟩] [("id", "invalid_id")] "id" "invalid_id"
    (by decide) (by decide) (by decide)
